import Mathlib

/-!
Verification of the xv6 console subsystem (`src/console.c`).

This file gives a shallow embedding of the console input path
(`consoleintr`, `consoleread`), the control path (`consoleioctl`) and the
diagnostic formatter (`cprintf`/`printint`), and proves the specified
properties about them.

Modelling conventions:
* The three cursors `r`, `w`, `e` are C `uint`s: naturals kept below
  `2^32`, with all arithmetic performed modulo `2^32` (`W32`); unsigned
  subtraction is `sub32`.
* The 128-byte circular array is a function `Nat → Nat`; every access in
  the model happens at an index already reduced modulo 128, and stored
  values are reduced modulo 256 (the C array holds `char`s).
* Raw input codes come from the keyboard/serial byte source, so the
  reached-state relation quantifies over codes `< 256` (one byte), as the
  natural-language description of the hardware collaborator prescribes.
* Echo output is gathered into a list of codes handed to `consputc`
  (the erase pseudo-code `0x100 = 256` included); wakeups are counted.
* Blocking: `consoleread`'s sleep has no producer in a sequential model,
  so reaching `r = w` with the process not killed yields the explicit
  outcome `ReadOutcome.blocked`, carrying the state at the sleep point.
-/

namespace Console

/-- `2^32`: cursor arithmetic in the C source is on unsigned 32-bit ints. -/
def W32 : Nat := 4294967296

/-- Unsigned 32-bit subtraction `a - b` for `a b < W32`. -/
def sub32 (a b : Nat) : Nat := (a + W32 - b) % W32

/-- The two `termios` mode bits the console consults: `ECHO` and `ICANON`
(`cons.termios.c_lflag`). -/
structure Termios where
  echo : Bool
  icanon : Bool
deriving DecidableEq

/-- `consoleinit` sets `c_lflag = ECHO | ICANON`. -/
def defaultTermios : Termios := ⟨true, true⟩

/-- The `input` structure of `console.c`: the 128-slot circular buffer and
the read (`r`), write/commit (`w`) and edit (`e`) cursors. `buf` is read
and written only at indices reduced modulo 128. -/
structure InputState where
  buf : Nat → Nat
  r : Nat
  w : Nat
  e : Nat

/-- The initial state: all cursors zero, buffer zeroed. -/
def initState : InputState := ⟨fun _ => 0, 0, 0, 0⟩

/-- `consechoc(c)`: echo `c` unless it is `C('D') = 4` or `ECHO` is off. -/
def consechoc (t : Termios) (c : Nat) : List Nat :=
  if c ≠ 4 ∧ t.echo = true then [c] else []

/-- The `c = (c == '\r') ? '\n' : c;` translation in `consoleintr`. -/
def translate (c : Nat) : Nat := if c = 13 then 10 else c

/-- Result of processing raw codes in `consoleintr`: the new buffer state,
the echoed codes (in order), and the number of `wakeup(&input.r)` calls. -/
structure IntrResult where
  st : InputState
  out : List Nat
  wakes : Nat

/-- The general accumulation step of `consoleintr`:
`if(c != 0 && input.e-input.r < INPUT_BUF){ ... }` — CR→LF translation,
store at slot `e % 128` (truncated to a byte), increment `e`, echo, and
commit (`w = e`, wakeup) on line feed, `C('D')`, full window, or raw mode. -/
def accumulate (t : Termios) (s : InputState) (c : Nat) : IntrResult :=
  if c ≠ 0 ∧ sub32 s.e s.r < 128 then
    if translate c = 10 ∨ translate c = 4 ∨
        (s.e + 1) % W32 = (s.r + 128) % W32 ∨ t.icanon = false then
      ⟨{ s with buf := Function.update s.buf (s.e % 128) (translate c % 256),
                e := (s.e + 1) % W32, w := (s.e + 1) % W32 },
       consechoc t (translate c), 1⟩
    else
      ⟨{ s with buf := Function.update s.buf (s.e % 128) (translate c % 256),
                e := (s.e + 1) % W32 },
       consechoc t (translate c), 0⟩
  else
    ⟨s, [], 0⟩

/-- One backward step of the kill-line loop: `input.e--`. -/
def erase1 (s : InputState) : InputState :=
  { s with e := (s.e + W32 - 1) % W32 }

/-- The `C('U')` kill-line loop:
`while(input.e != input.w && input.buf[(input.e-1) % INPUT_BUF] != '\n')`.
The fuel argument is instantiated with `sub32 e w`, which bounds the
number of iterations exactly: each `e--` decreases the unsigned distance
`e - w` by one, and the loop exits at distance zero (`e == w`). -/
def killLineAux (t : Termios) : Nat → InputState → InputState × List Nat
  | 0, s => (s, [])
  | fuel+1, s =>
    if s.e ≠ s.w ∧ s.buf ((s.e + W32 - 1) % W32 % 128) ≠ 10 then
      let p := killLineAux t fuel (erase1 s)
      (p.1, consechoc t 256 ++ p.2)
    else
      (s, [])

/-- Process one raw code in `consoleintr`'s `while((c = getc()) >= 0)` body.
In canonical mode, `C('P') = 16` dumps processes (no buffer effect),
`C('U') = 21` kills the line, `C('H') = 8` and `'\x7f' = 127` erase one
byte; everything else (and every code in raw mode) goes to general
accumulation. The echoed-erase pseudo-code `BACKSPACE` is `0x100 = 256`. -/
def intrCode (t : Termios) (s : InputState) (c : Nat) : IntrResult :=
  if t.icanon = true then
    if c = 16 then ⟨s, [], 0⟩
    else if c = 21 then
      let p := killLineAux t (sub32 s.e s.w) s
      ⟨p.1, p.2, 0⟩
    else if c = 8 ∨ c = 127 then
      if s.e ≠ s.w then
        ⟨{ s with e := (s.e + W32 - 1) % W32 }, consechoc t 256, 0⟩
      else ⟨s, [], 0⟩
    else accumulate t s c
  else accumulate t s c

/-- `consoleintr`: drain a batch of raw codes, processing each in turn. -/
def consoleintr (t : Termios) (s : InputState) (cs : List Nat) : IntrResult :=
  match cs with
  | [] => ⟨s, [], 0⟩
  | c :: rest =>
    let p := intrCode t s c
    let q := consoleintr t p.st rest
    ⟨q.st, p.out ++ q.out, p.wakes + q.wakes⟩

/-- Outcome of a `consoleread` call in the sequential model:
* `done bytes st` — the loop exited normally; the call returns
  `bytes.length` (that is, `target - n`) and `bytes` were copied to `dst`;
* `killedRet bytes st` — `r == w` was observed with `proc->killed` set;
  the call returns `-1` (`bytes` had been copied to `dst` before that);
* `blocked bytes rem st` — `r == w` was observed with the process alive:
  the call sleeps at state `st` with `rem` bytes still wanted. -/
inductive ReadOutcome where
  | done (bytes : List Nat) (st : InputState)
  | killedRet (bytes : List Nat) (st : InputState)
  | blocked (bytes : List Nat) (rem : Nat) (st : InputState)

/-- The bytes copied to the caller's buffer, whatever the outcome. -/
def bytesOf : ReadOutcome → List Nat
  | .done bs _ => bs
  | .killedRet bs _ => bs
  | .blocked bs _ _ => bs

/-- The input-buffer state at the point the call returned or slept. -/
def stOf : ReadOutcome → InputState
  | .done _ s => s
  | .killedRet _ s => s
  | .blocked _ _ s => s

/-- The value `consoleread` returns: byte count on `done`, `-1` on kill;
a blocked call has not returned. -/
def retOf : ReadOutcome → Option Int
  | .done bs _ => some bs.length
  | .killedRet _ _ => some (-1)
  | .blocked _ _ _ => none

/-- The `while(n > 0)` loop of `consoleread`. `n` counts down from
`target`; `acc` is what has been copied to `dst` so far. On `C('D') = 4`
in canonical mode: if some byte was already delivered (`n < target`),
rewind `r` and stop; otherwise stop with `r` advanced past the marker.
On `'\n'` in canonical mode, stop after delivering the byte. -/
def readLoop (t : Termios) (killed : Bool) (target : Nat) :
    Nat → InputState → List Nat → ReadOutcome
  | 0, s, acc => .done acc s
  | n+1, s, acc =>
    if s.r = s.w then
      if killed then .killedRet acc s else .blocked acc (n+1) s
    else if s.buf (s.r % 128) = 4 ∧ t.icanon = true then
      if n + 1 < target then
        .done acc { s with r := ((s.r + 1) % W32 + W32 - 1) % W32 }
      else
        .done acc { s with r := (s.r + 1) % W32 }
    else if s.buf (s.r % 128) = 10 ∧ t.icanon = true then
      .done (acc ++ [s.buf (s.r % 128)]) { s with r := (s.r + 1) % W32 }
    else
      readLoop t killed target n { s with r := (s.r + 1) % W32 }
        (acc ++ [s.buf (s.r % 128)])

/-- A full `consoleread(ip, dst, n)` call with `target = n`. -/
def consoleread (t : Termios) (killed : Bool) (n : Nat) (s : InputState) :
    ReadOutcome :=
  readLoop t killed n n s []

/-- `readLoop` run with the process alive would reach the sleep point
(`r == w` observed with bytes still wanted). -/
def readWouldBlock (t : Termios) (target n : Nat) (s : InputState)
    (acc : List Nat) : Prop :=
  ∃ bs m s1, readLoop t false target n s acc = .blocked bs m s1

/-- The input-buffer states reachable from `initState` through the public
operations: interrupt batches (raw codes are bytes, `< 256`, from the
keyboard/serial source) and read calls, under any mode settings and any
kill status. The read step takes the state at any exit or sleep point of
the loop, for any remaining quota, which covers calls resumed after a
sleep as well as fresh calls. `consoleioctl` does not touch this state. -/
inductive Reachable : InputState → Prop where
  | init : Reachable initState
  | intr : ∀ {s} (t : Termios) (cs : List Nat),
      (∀ c ∈ cs, c < 256) → Reachable s → Reachable (consoleintr t s cs).st
  | read : ∀ {s} (t : Termios) (killed : Bool) (target n : Nat)
      (acc : List Nat), Reachable s →
      Reachable (stOf (readLoop t killed target n s acc))

/-- The cursor/content invariant: cursors are 32-bit values, the stored
window `e - r` holds at most 128 bytes, it splits as
`(w - r) + (e - w)`, and no byte of the uncommitted region `[w, e)` is a
line feed. -/
def Inv (s : InputState) : Prop :=
  s.r < W32 ∧ s.w < W32 ∧ s.e < W32 ∧
  sub32 s.e s.r ≤ 128 ∧
  sub32 s.w s.r + sub32 s.e s.w = sub32 s.e s.r ∧
  ∀ k, k < sub32 s.e s.w → s.buf ((s.w + k) % 128) ≠ 10

/-- Every byte currently stored in the window `[r, e)` satisfies `P`
(provenance predicate for the data the interrupt handler has stored). -/
def Stored (P : Nat → Prop) (s : InputState) : Prop :=
  ∀ k, k < sub32 s.e s.r → P (s.buf ((s.r + k) % 128))

/-- The `len` consecutive bytes stored in buffer `b` starting at cursor
position `start`, in dequeue order — exactly the successive
`buf[r++ % 128]` reads the consumer performs. -/
def slots (b : Nat → Nat) (start : Nat) : Nat → List Nat
  | 0 => []
  | len+1 => b (start % 128) :: slots b ((start + 1) % W32) len

/-! ### The diagnostic formatter (`printint`, `cprintf`) -/

/-- One digit character of `printint`'s table `"0123456789abcdef"`. -/
def digitChar (d : Nat) : Nat := if d < 10 then 48 + d else 87 + d

/-- The do-while digit loop of `printint`: emit the digits of `x` in base
`base`, least-significant first, always at least one digit, stopping when
the quotient reaches zero. The fuel argument is instantiated with `x`,
which bounds the iteration count for every base the source uses (each
division by 10 or 16 strictly shrinks a positive `x`). -/
def rawDigitsFuel (base : Nat) : Nat → Nat → List Nat
  | 0, x => [digitChar (x % base)]
  | fuel+1, x =>
    if x / base = 0 then [digitChar (x % base)]
    else digitChar (x % base) :: rawDigitsFuel base fuel (x / base)

/-- The digit list `printint` builds in `buf`, least-significant first. -/
def rawDigits (base x : Nat) : List Nat := rawDigitsFuel base x x

/-- `printint(xx, base, sign)` where `w` is the 32-bit word passed: when
`sign` is requested and the word is negative as a two's-complement int
(`w ≥ 2^31`), the magnitude `-xx = 2^32 − w` is printed and `'-' = 45` is
appended to the digit buffer; the buffer is then emitted in reverse. -/
def printint (w base : Nat) (sign : Bool) : List Nat :=
  if sign = true ∧ 2147483648 ≤ w then
    (rawDigits base ((4294967296 - w) % 4294967296) ++ [45]).reverse
  else
    (rawDigits base w).reverse

/-- One 32-bit argument word of `cprintf`'s variadic list: an integer
word, or a string pointer (`none` models the null pointer). Reading a
word with a mismatched conversion is raw pointer reinterpretation on the
C side and is outside this model; the formatter claims only consume
arguments that match their specifiers. -/
inductive Varg where
  | num (w : Nat)
  | str (s : Option (List Nat))

/-- `*argp` read as an integer word (`uint`). -/
def vargNum : List Varg → Nat
  | .num w :: _ => w % 4294967296
  | _ => 0

/-- `*argp` read as a `char *`. -/
def vargStr : List Varg → Option (List Nat)
  | .str s :: _ => s
  | _ => none

/-- The `"(null)"` substitution text. -/
def nullStr : List Nat := [40, 110, 117, 108, 108, 41]

/-- `cprintf`'s scan over the format bytes (the C string's bytes before
its NUL terminator; `'%' = 37`, `'d' = 100`, `'x' = 120`, `'p' = 112`,
`'s' = 115`). A `%` as the last byte hits the `c == 0` check and breaks
out of the scan emitting nothing; any other unknown `%<c>` emits `%`
followed by `<c>`. -/
def cprintf : List Nat → List Varg → List Nat
  | [], _ => []
  | c :: rest, args =>
    if c ≠ 37 then c :: cprintf rest args
    else
      match rest with
      | [] => []
      | c2 :: rest2 =>
        if c2 = 100 then
          printint (vargNum args) 10 true ++ cprintf rest2 args.tail
        else if c2 = 120 ∨ c2 = 112 then
          printint (vargNum args) 16 false ++ cprintf rest2 args.tail
        else if c2 = 115 then
          (match vargStr args with
            | none => nullStr
            | some str => str) ++ cprintf rest2 args.tail
        else if c2 = 37 then
          37 :: cprintf rest2 args
        else
          37 :: c2 :: cprintf rest2 args

/-- Format strings the scan consumes completely: every `%` in them starts
a full two-byte directive (known or unknown), so nothing is left pending
at the end. A format string "ends with a lone `%`" exactly when it is
such a complete format followed by one final `%`: the scan then reads
that `%` as the start of a fresh directive and finds the terminator. -/
inductive FmtComplete : List Nat → Prop where
  | nil : FmtComplete []
  | lit : ∀ (c : Nat) (rest : List Nat), c ≠ 37 → FmtComplete rest →
      FmtComplete (c :: rest)
  | dir : ∀ (c2 : Nat) (rest : List Nat), FmtComplete rest →
      FmtComplete (37 :: c2 :: rest)

/-! ### The control path (`consoleioctl`) -/

/-- The get-mode request code (platform `termios.h` value; only its
distinctness from `TCSETA` matters to the console). -/
def TCGETA : Nat := 21505

/-- The set-mode request code. -/
def TCSETA : Nat := 21506

/-- `consoleioctl(ip, req)`: the triple is the returned value (`none`
models the C function falling off its end without a `return` on the two
success paths), the console's termios after the call, and the data copied
out to the caller's buffer (for `TCGETA`). `argOk` models whether
`argptr` accepted the user pointer, `user` the caller's structure. -/
def consoleioctl (req : Nat) (argOk : Bool) (cur user : Termios) :
    Option Int × Termios × Option Termios :=
  if req ≠ TCGETA ∧ req ≠ TCSETA then (some (-1), cur, none)
  else if argOk = false then (some (-1), cur, none)
  else if req = TCGETA then (none, cur, some cur)
  else (none, user, none)

/-! ### Arithmetic toolkit for 32-bit cursor reasoning -/

theorem W32_pos : 0 < W32 := by decide

/-- Closed form for unsigned subtraction on representable values. -/
theorem sub32_eq {a b : Nat} (ha : a < W32) (hb : b < W32) :
    sub32 a b = if b ≤ a then a - b else a + W32 - b := by
  unfold sub32
  rcases le_or_lt b a with h | h
  · rw [if_pos h, show a + W32 - b = (a - b) + W32 by omega,
      Nat.add_mod_right, Nat.mod_eq_of_lt (by omega)]
  · rw [if_neg (by omega), Nat.mod_eq_of_lt (by omega)]

theorem sub32_zero_iff {a b : Nat} (ha : a < W32) (hb : b < W32) :
    sub32 a b = 0 ↔ a = b := by
  rw [sub32_eq ha hb]; split <;> omega

theorem sub32_lt {a b : Nat} (ha : a < W32) (hb : b < W32) :
    sub32 a b < W32 := by
  rw [sub32_eq ha hb]; split <;> omega

/-- Incrementing the left cursor adds one to the distance (no wrap of the
distance itself). -/
theorem sub32_succ_left {a b : Nat} (ha : a < W32) (hb : b < W32)
    (h : sub32 a b + 1 < W32) :
    sub32 ((a + 1) % W32) b = sub32 a b + 1 := by
  rcases Nat.lt_or_ge (a + 1) W32 with h1 | h1
  · rw [Nat.mod_eq_of_lt h1, sub32_eq h1 hb, sub32_eq ha hb] at *
    split at h <;> split <;> omega
  · have ha1 : a + 1 = W32 := by omega
    rw [ha1, Nat.mod_self]
    rw [sub32_eq W32_pos hb, sub32_eq ha hb] at *
    split at h <;> split <;> omega

/-- Decrementing the left cursor (when the distance is positive) subtracts
one from the distance. -/
theorem sub32_pred_left {a b : Nat} (ha : a < W32) (hb : b < W32)
    (h : sub32 a b ≠ 0) :
    sub32 ((a + W32 - 1) % W32) b = sub32 a b - 1 := by
  rcases Nat.lt_or_ge a 1 with h1 | h1
  · have ha0 : a = 0 := by omega
    subst ha0
    rw [show 0 + W32 - 1 = W32 - 1 by omega, Nat.mod_eq_of_lt (by omega)]
    rw [sub32_eq (by omega : W32 - 1 < W32) hb, sub32_eq (by omega) hb] at *
    split at h <;> split <;> omega
  · rw [show a + W32 - 1 = (a - 1) + W32 by omega, Nat.add_mod_right,
      Nat.mod_eq_of_lt (by omega)]
    rw [sub32_eq (by omega : a - 1 < W32) hb, sub32_eq ha hb] at *
    split at h <;> split <;> omega

/-- Incrementing the right cursor (when the distance is positive)
subtracts one from the distance. -/
theorem sub32_succ_right {a b : Nat} (ha : a < W32) (hb : b < W32)
    (h : sub32 a b ≠ 0) :
    sub32 a ((b + 1) % W32) = sub32 a b - 1 := by
  rcases Nat.lt_or_ge (b + 1) W32 with h1 | h1
  · rw [Nat.mod_eq_of_lt h1, sub32_eq ha h1, sub32_eq ha hb] at *
    split at h <;> split <;> omega
  · have hb1 : b + 1 = W32 := by omega
    rw [hb1, Nat.mod_self]
    rw [sub32_eq ha W32_pos, sub32_eq ha hb] at *
    split at h <;> split <;> omega

/-- `a = (b + 128) % W32` is exactly "distance from `b` to `a` is 128". -/
theorem sub32_eq_128_iff {a b : Nat} (ha : a < W32) (hb : b < W32) :
    a = (b + 128) % W32 ↔ sub32 a b = 128 := by
  have hW : W32 = 4294967296 := rfl
  rcases Nat.lt_or_ge (b + 128) W32 with h1 | h1
  · rw [Nat.mod_eq_of_lt h1, sub32_eq ha hb]; split <;> omega
  · rw [show b + 128 = (b + 128 - W32) + W32 by omega, Nat.add_mod_right,
      Nat.mod_eq_of_lt (by omega), sub32_eq ha hb]
    split <;> omega

/-- The slot selected by cursor `a` equals the slot `sub32 a b` places
after cursor `b` (128 divides `W32`). -/
theorem mod128_cursor {a b : Nat} (ha : a < W32) (hb : b < W32) :
    (b + sub32 a b) % 128 = a % 128 := by
  rw [sub32_eq ha hb]
  split
  · rw [show b + (a - b) = a by omega]
  · rw [show b + (a + W32 - b) = a + 128 * 33554432 by
      show b + (a + W32 - b) = a + W32; omega]
    rw [Nat.add_mul_mod_self_left]

/-- Within one window, slot selection is injective. -/
theorem idx_inj {w j k : Nat} (hj : j < 128) (hk : k < 128)
    (h : (w + j) % 128 = (w + k) % 128) : j = k := by
  have h2 : j % 128 = k % 128 :=
    Nat.ModEq.add_left_cancel' w h
  rwa [Nat.mod_eq_of_lt hj, Nat.mod_eq_of_lt hk] at h2

/-- Reducing an index modulo `W32` first does not change its slot
(128 divides `W32`). -/
theorem mod128_shift (x k : Nat) : (x % W32 + k) % 128 = (x + k) % 128 :=
  ((Nat.mod_modEq x W32).of_dvd
    (show (128 : Nat) ∣ W32 from ⟨33554432, rfl⟩)).add_right k

/-- Incrementing then decrementing a representable cursor is the
identity. -/
theorem succ_pred_cancel {a : Nat} (ha : a < W32) :
    ((a + 1) % W32 + W32 - 1) % W32 = a := by
  rcases Nat.lt_or_ge (a + 1) W32 with h1 | h1
  · rw [Nat.mod_eq_of_lt h1, show a + 1 + W32 - 1 = a + W32 by omega,
      Nat.add_mod_right, Nat.mod_eq_of_lt ha]
  · have : a + 1 = W32 := by omega
    rw [this, Nat.mod_self, show 0 + W32 - 1 = W32 - 1 by omega,
      Nat.mod_eq_of_lt (by omega)]
    omega

/-! ### Invariant preservation -/

/-- Introduction form for `Inv` over an explicit state, stated on plain
fields so that the elaborator need not reduce record projections. -/
theorem inv_mk {b : Nat → Nat} {r w e : Nat} (hr : r < W32) (hw : w < W32)
    (he : e < W32) (h4 : sub32 e r ≤ 128)
    (h5 : sub32 w r + sub32 e w = sub32 e r)
    (h6 : ∀ k, k < sub32 e w → b ((w + k) % 128) ≠ 10) :
    Inv ⟨b, r, w, e⟩ := ⟨hr, hw, he, h4, h5, h6⟩

theorem inv_init : Inv initState := by
  refine ⟨by decide, by decide, by decide, by decide, by decide, ?_⟩
  intro k hk
  rw [show sub32 initState.e initState.w = 0 from by decide] at hk
  exact absurd hk (by omega)

theorem inv_accumulate (t : Termios) {s : InputState} {c : Nat}
    (hc : c < 256) (hInv : Inv s) : Inv (accumulate t s c).st := by
  obtain ⟨hr, hw, he, h4, h5, h6⟩ := hInv
  have hW : W32 = 4294967296 := rfl
  unfold accumulate
  split
  case isFalse h => exact ⟨hr, hw, he, h4, h5, h6⟩
  case isTrue hg =>
    obtain ⟨hc0, hroom⟩ := hg
    have he1 : (s.e + 1) % W32 < W32 := Nat.mod_lt _ (by omega)
    have hse : sub32 ((s.e + 1) % W32) s.r = sub32 s.e s.r + 1 :=
      sub32_succ_left he hr (by omega)
    have hsew : sub32 ((s.e + 1) % W32) s.w = sub32 s.e s.w + 1 :=
      sub32_succ_left he hw (by omega)
    have hz : sub32 ((s.e + 1) % W32) ((s.e + 1) % W32) = 0 :=
      (sub32_zero_iff he1 he1).mpr rfl
    split
    case isTrue hcommit =>
      refine ⟨hr, he1, he1, ?_, ?_, ?_⟩
      · show sub32 ((s.e + 1) % W32) s.r ≤ 128
        rw [hse]; omega
      · show sub32 ((s.e + 1) % W32) s.r + sub32 ((s.e + 1) % W32) ((s.e + 1) % W32) =
          sub32 ((s.e + 1) % W32) s.r
        rw [hz]; omega
      · intro k hk
        rw [show sub32 ((s.e + 1) % W32) ((s.e + 1) % W32) = 0 from hz] at hk
        exact absurd hk (by omega)
    case isFalse hcommit =>
      push_neg at hcommit
      obtain ⟨hnl, hnd, hnfull, hcanon⟩ := hcommit
      refine ⟨hr, hw, he1, ?_, ?_, ?_⟩
      · show sub32 ((s.e + 1) % W32) s.r ≤ 128
        rw [hse]; omega
      · show sub32 s.w s.r + sub32 ((s.e + 1) % W32) s.w = sub32 ((s.e + 1) % W32) s.r
        rw [hse, hsew]; omega
      · intro k hk
        rw [show ({ s with
              buf := Function.update s.buf (s.e % 128) (translate c % 256),
              e := (s.e + 1) % W32 } : InputState).e = (s.e + 1) % W32 from rfl,
          hsew] at hk
        have hewlt : sub32 s.e s.w < 128 := by omega
        show Function.update s.buf (s.e % 128) (translate c % 256) ((s.w + k) % 128) ≠ 10
        rcases Nat.lt_or_ge k (sub32 s.e s.w) with hklt | hkge
        · have hne : (s.w + k) % 128 ≠ s.e % 128 := by
            rw [← mod128_cursor he hw]
            intro hcontra
            exact absurd (idx_inj (by omega) (by omega) hcontra) (by omega)
          rw [Function.update_noteq hne]
          exact h6 k hklt
        · have hkeq : k = sub32 s.e s.w := by omega
          subst hkeq
          rw [mod128_cursor he hw, Function.update_same]
          have hlt : translate c < 256 := by unfold translate; split <;> omega
          rw [Nat.mod_eq_of_lt hlt]
          exact hnl

theorem inv_erase1 {s : InputState} (hInv : Inv s) (hne : s.e ≠ s.w) :
    Inv (erase1 s) := by
  obtain ⟨hr, hw, he, h4, h5, h6⟩ := hInv
  have hW : W32 = 4294967296 := rfl
  have hnz : sub32 s.e s.w ≠ 0 := fun h0 => hne ((sub32_zero_iff he hw).mp h0)
  have hnz2 : sub32 s.e s.r ≠ 0 := by omega
  have he1 : (s.e + W32 - 1) % W32 < W32 := Nat.mod_lt _ (by omega)
  have hp1 : sub32 ((s.e + W32 - 1) % W32) s.r = sub32 s.e s.r - 1 :=
    sub32_pred_left he hr hnz2
  have hp2 : sub32 ((s.e + W32 - 1) % W32) s.w = sub32 s.e s.w - 1 :=
    sub32_pred_left he hw hnz
  refine inv_mk hr hw he1 ?_ ?_ ?_
  · rw [hp1]; omega
  · rw [hp1, hp2]; omega
  · intro k hk
    rw [hp2] at hk
    exact h6 k (by omega)

/-- The kill-line loop, run with its exact iteration bound, always drains
the uncommitted region completely: on an invariant-satisfying state the
byte test never fires (no uncommitted byte is a line feed), so the loop
stops exactly at `e = w`, echoing one erase per removed byte. -/
theorem killLineAux_drain (t : Termios) :
    ∀ (n : Nat) (s : InputState), Inv s → sub32 s.e s.w = n →
      killLineAux t n s =
        ({ s with e := s.w }, if t.echo = true then List.replicate n 256 else []) := by
  intro n
  induction n with
  | zero =>
    intro s hInv h0
    obtain ⟨hr, hw, he, -, -, -⟩ := hInv
    have hew : s.e = s.w := (sub32_zero_iff he hw).mp h0
    obtain ⟨b, r, w, e⟩ := s
    simp only at hew
    subst hew
    simp [killLineAux]
  | succ n ih =>
    intro s hInv hn
    obtain ⟨b, r, w, e⟩ := s
    obtain ⟨hr, hw, he, h4, h5, h6⟩ := id hInv
    dsimp only at hr hw he h4 h5 h6 hn
    have hW : W32 = 4294967296 := rfl
    have hnz : sub32 e w ≠ 0 := by omega
    have hne : e ≠ w := fun h0 => hnz ((sub32_zero_iff he hw).mpr h0)
    have he1 : (e + W32 - 1) % W32 < W32 := Nat.mod_lt _ (by omega)
    have hp2 : sub32 ((e + W32 - 1) % W32) w = n := by
      rw [sub32_pred_left he hw hnz]; omega
    have hslot : (e + W32 - 1) % W32 % 128 = (w + n) % 128 := by
      rw [← mod128_cursor he1 hw, hp2]
    have hnl : b ((e + W32 - 1) % W32 % 128) ≠ 10 := by
      rw [hslot]; exact h6 n (by omega)
    simp only [killLineAux]
    rw [if_pos ⟨hne, hnl⟩]
    have hInv1 : Inv (erase1 ⟨b, r, w, e⟩) := inv_erase1 hInv hne
    rw [ih (erase1 ⟨b, r, w, e⟩) hInv1 hp2]
    rcases ht : t.echo with _ | _
    · simp [consechoc, ht, erase1]
    · simp [consechoc, ht, erase1, List.replicate_succ]

theorem inv_commit_reset {s : InputState} (hInv : Inv s) :
    Inv { s with e := s.w } := by
  obtain ⟨hr, hw, he, h4, h5, h6⟩ := hInv
  have hz : sub32 s.w s.w = 0 := (sub32_zero_iff hw hw).mpr rfl
  refine inv_mk hr hw hw ?_ ?_ ?_
  · omega
  · rw [hz]; omega
  · intro k hk
    rw [hz] at hk
    exact absurd hk (by omega)

theorem inv_intrCode (t : Termios) {s : InputState} {c : Nat}
    (hc : c < 256) (hInv : Inv s) : Inv (intrCode t s c).st := by
  unfold intrCode
  by_cases hcan : t.icanon = true
  · rw [if_pos hcan]
    by_cases h16 : c = 16
    · rw [if_pos h16]; exact hInv
    · rw [if_neg h16]
      by_cases h21 : c = 21
      · rw [if_pos h21]
        show Inv (killLineAux t (sub32 s.e s.w) s).1
        rw [killLineAux_drain t (sub32 s.e s.w) s hInv rfl]
        exact inv_commit_reset hInv
      · rw [if_neg h21]
        by_cases h8 : c = 8 ∨ c = 127
        · rw [if_pos h8]
          by_cases hne : s.e ≠ s.w
          · rw [if_pos hne]; exact inv_erase1 hInv hne
          · rw [if_neg hne]; exact hInv
        · rw [if_neg h8]; exact inv_accumulate t hc hInv
  · rw [if_neg hcan]; exact inv_accumulate t hc hInv

theorem inv_consoleintr (t : Termios) :
    ∀ (cs : List Nat) (s : InputState), (∀ c ∈ cs, c < 256) → Inv s →
      Inv (consoleintr t s cs).st := by
  intro cs
  induction cs with
  | nil => intro s _ hInv; exact hInv
  | cons c rest ih =>
    intro s hcs hInv
    exact ih _ (fun x hx => hcs x (List.mem_cons_of_mem _ hx))
      (inv_intrCode t (hcs c (List.mem_cons_self _ _)) hInv)

theorem inv_readLoop (t : Termios) (killed : Bool) (target : Nat) :
    ∀ (n : Nat) (s : InputState) (acc : List Nat), Inv s →
      Inv (stOf (readLoop t killed target n s acc)) := by
  intro n
  induction n with
  | zero => intro s acc hInv; exact hInv
  | succ n ih =>
    intro s acc hInv
    obtain ⟨hr, hw, he, h4, h5, h6⟩ := id hInv
    have hW : W32 = 4294967296 := rfl
    simp only [readLoop]
    by_cases hrw : s.r = s.w
    · rw [if_pos hrw]
      split <;> exact hInv
    · rw [if_neg hrw]
      have hnz : sub32 s.w s.r ≠ 0 := fun h0 => hrw ((sub32_zero_iff hw hr).mp h0).symm
      have hnz2 : sub32 s.e s.r ≠ 0 := by omega
      have hr1 : (s.r + 1) % W32 < W32 := Nat.mod_lt _ (by omega)
      have hq1 : sub32 s.w ((s.r + 1) % W32) = sub32 s.w s.r - 1 :=
        sub32_succ_right hw hr hnz
      have hq2 : sub32 s.e ((s.r + 1) % W32) = sub32 s.e s.r - 1 :=
        sub32_succ_right he hr hnz2
      have hInv1 : Inv { s with r := (s.r + 1) % W32 } := by
        refine inv_mk hr1 hw he ?_ ?_ ?_
        · rw [hq2]; omega
        · rw [hq1, hq2]; omega
        · intro k hk; exact h6 k hk
      split
      · split
        · show Inv { s with r := ((s.r + 1) % W32 + W32 - 1) % W32 }
          rw [succ_pred_cancel hr]
          exact hInv
        · exact hInv1
      · split
        · exact hInv1
        · exact ih _ _ hInv1

/-- Every reachable input-buffer state satisfies the cursor/content
invariant. -/
theorem inv_reachable : ∀ {s : InputState}, Reachable s → Inv s := by
  intro s h
  induction h with
  | init => exact inv_init
  | intr t cs hcs _ ih => exact inv_consoleintr t cs _ hcs ih
  | read t killed target n acc _ ih => exact inv_readLoop t killed target n _ acc ih

/-! ### Echo non-interference helpers -/

theorem killLineAux_st_indep (t1 t2 : Termios) :
    ∀ (fuel : Nat) (s : InputState),
      (killLineAux t1 fuel s).1 = (killLineAux t2 fuel s).1 := by
  intro fuel
  induction fuel with
  | zero => intro s; rfl
  | succ n ih =>
    intro s
    simp only [killLineAux]
    by_cases h : s.e ≠ s.w ∧ s.buf ((s.e + W32 - 1) % W32 % 128) ≠ 10
    · rw [if_pos h, if_pos h]
      exact ih (erase1 s)
    · rw [if_neg h, if_neg h]

theorem accumulate_echo_indep (t1 t2 : Termios) (hic : t1.icanon = t2.icanon)
    (s : InputState) (c : Nat) :
    (accumulate t1 s c).st = (accumulate t2 s c).st ∧
    (accumulate t1 s c).wakes = (accumulate t2 s c).wakes := by
  unfold accumulate
  by_cases hg : c ≠ 0 ∧ sub32 s.e s.r < 128
  · rw [if_pos hg, if_pos hg]
    by_cases hcommit : translate c = 10 ∨ translate c = 4 ∨
        (s.e + 1) % W32 = (s.r + 128) % W32 ∨ t2.icanon = false
    · rw [if_pos hcommit, if_pos (by rw [hic]; exact hcommit)]
      exact ⟨rfl, rfl⟩
    · rw [if_neg hcommit, if_neg (by rw [hic]; exact hcommit)]
      exact ⟨rfl, rfl⟩
  · rw [if_neg hg, if_neg hg]; exact ⟨rfl, rfl⟩

theorem intrCode_echo_indep (t1 t2 : Termios) (hic : t1.icanon = t2.icanon)
    (s : InputState) (c : Nat) :
    (intrCode t1 s c).st = (intrCode t2 s c).st ∧
    (intrCode t1 s c).wakes = (intrCode t2 s c).wakes := by
  unfold intrCode
  rw [hic]
  by_cases ht : t2.icanon = true
  · rw [if_pos ht, if_pos ht]
    by_cases h16 : c = 16
    · rw [if_pos h16, if_pos h16]; exact ⟨rfl, rfl⟩
    · rw [if_neg h16, if_neg h16]
      by_cases h21 : c = 21
      · rw [if_pos h21, if_pos h21]
        exact ⟨killLineAux_st_indep t1 t2 _ s, rfl⟩
      · rw [if_neg h21, if_neg h21]
        by_cases h8 : c = 8 ∨ c = 127
        · rw [if_pos h8, if_pos h8]
          by_cases hne : s.e ≠ s.w
          · rw [if_pos hne, if_pos hne]; exact ⟨rfl, rfl⟩
          · rw [if_neg hne, if_neg hne]; exact ⟨rfl, rfl⟩
        · rw [if_neg h8, if_neg h8]
          exact accumulate_echo_indep t1 t2 hic s c
  · rw [if_neg ht, if_neg ht]
    exact accumulate_echo_indep t1 t2 hic s c

/-! ### Claim theorems: invariants and line discipline -/

/-- C1: in every state reachable from the initial state (all cursors 0)
through `consoleintr` batches and `consoleread` calls, the cursors satisfy
`R ≤ W ≤ E` and `E − R ≤ 128` (comparisons as unsigned 32-bit distances):
the stored unread window never exceeds the capacity, however many raw
codes are pushed — excess codes are dropped, not queued. -/
theorem reachable_cursor_invariant (s : InputState) (h : Reachable s) :
    sub32 s.w s.r ≤ sub32 s.e s.r ∧ sub32 s.e s.r ≤ 128 := by
  obtain ⟨hr, hw, he, h4, h5, h6⟩ := inv_reachable h
  exact ⟨by omega, h4⟩

/-- Witness for C1 at a concrete reachable state: 200 raw `'a'` codes
pushed into the fresh console with no read in between. -/
theorem reachable_cursor_invariant_witness :
    sub32 ((consoleintr defaultTermios initState (List.replicate 200 97)).st).w
        ((consoleintr defaultTermios initState (List.replicate 200 97)).st).r ≤
      sub32 ((consoleintr defaultTermios initState (List.replicate 200 97)).st).e
        ((consoleintr defaultTermios initState (List.replicate 200 97)).st).r ∧
    sub32 ((consoleintr defaultTermios initState (List.replicate 200 97)).st).e
        ((consoleintr defaultTermios initState (List.replicate 200 97)).st).r ≤ 128 :=
  reachable_cursor_invariant _
    (Reachable.intr defaultTermios (List.replicate 200 97)
      (fun c hc => by rw [List.eq_of_mem_replicate hc]; omega)
      Reachable.init)

/-- C5: in canonical mode, processing the kill-line code `C('U') = 21`
drains the edit cursor exactly back to the commit cursor (`E = W`) on
every reachable state, emitting one echoed erase per removed byte when
echo is on. -/
theorem killline_drains_to_commit (t : Termios) (s : InputState)
    (hre : Reachable s) (hcan : t.icanon = true) :
    (intrCode t s 21).st = { s with e := s.w } ∧
    (t.echo = true →
      (intrCode t s 21).out = List.replicate (sub32 s.e s.w) 256) := by
  have hInv := inv_reachable hre
  unfold intrCode
  rw [if_pos hcan, if_neg (by omega : (21 : Nat) ≠ 16), if_pos rfl]
  rw [killLineAux_drain t (sub32 s.e s.w) s hInv rfl]
  constructor
  · rfl
  · intro hecho
    show (if t.echo = true then List.replicate (sub32 s.e s.w) 256 else []) =
      List.replicate (sub32 s.e s.w) 256
    rw [if_pos hecho]

/-- Witness for C5: kill-line after pushing `h`,`i` into a fresh console
rewinds `E` to `W` and echoes two erases. -/
theorem killline_drains_to_commit_witness :
    (intrCode defaultTermios ((consoleintr defaultTermios initState [104, 105]).st) 21).st =
      { (consoleintr defaultTermios initState [104, 105]).st with
        e := ((consoleintr defaultTermios initState [104, 105]).st).w } ∧
    (defaultTermios.echo = true →
      (intrCode defaultTermios ((consoleintr defaultTermios initState [104, 105]).st) 21).out =
        List.replicate (sub32 ((consoleintr defaultTermios initState [104, 105]).st).e
          ((consoleintr defaultTermios initState [104, 105]).st).w) 256) :=
  killline_drains_to_commit defaultTermios _
    (Reachable.intr defaultTermios [104, 105]
      (by intro c hc; simp at hc; rcases hc with rfl | rfl <;> omega)
      Reachable.init)
    rfl

/-- C4 counterexample: the claim says a NUL byte arriving while the window
has room proceeds to general accumulation and is stored; but on the fresh
console (window empty, plenty of room) pushing the NUL code leaves the
state — in particular the edit cursor — completely unchanged: the source
guard `c != 0 && e - r < 128` skips NUL regardless of room. -/
theorem nul_with_room_not_stored :
    (consoleintr defaultTermios initState [0]).st = initState ∧
    sub32 initState.e initState.r < 128 :=
  ⟨rfl, by decide⟩

/-- C4 amended: general accumulation is skipped exactly when the code is
the NUL byte OR the window is full; a NUL byte is never stored, with or
without room. -/
theorem accumulate_skip_iff (t : Termios) (s : InputState) (c : Nat)
    (he : s.e < W32) :
    ((accumulate t s c).st = s ∧ (accumulate t s c).out = []) ↔
      (c = 0 ∨ 128 ≤ sub32 s.e s.r) := by
  have hW : W32 = 4294967296 := rfl
  have hstep : (s.e + 1) % W32 ≠ s.e := by
    rcases Nat.lt_or_ge (s.e + 1) W32 with h1 | h1
    · rw [Nat.mod_eq_of_lt h1]; omega
    · have h2 : s.e + 1 = W32 := by omega
      rw [h2, Nat.mod_self]; omega
  unfold accumulate
  by_cases hg : c ≠ 0 ∧ sub32 s.e s.r < 128
  · rw [if_pos hg]
    constructor
    · intro hlhs
      exfalso
      apply hstep
      rcases hlhs with ⟨hst, -⟩
      by_cases hcommit : translate c = 10 ∨ translate c = 4 ∨
          (s.e + 1) % W32 = (s.r + 128) % W32 ∨ t.icanon = false
      · rw [if_pos hcommit] at hst
        exact congrArg InputState.e hst
      · rw [if_neg hcommit] at hst
        exact congrArg InputState.e hst
    · intro hrhs
      exact absurd hrhs (by push_neg; exact ⟨hg.1, by omega⟩)
  · rw [if_neg hg]
    constructor
    · intro _
      by_cases hc0 : c = 0
      · exact Or.inl hc0
      · refine Or.inr ?_
        rcases not_and_or.mp hg with h0 | hlt
        · exact absurd hc0 (by simpa using h0)
        · omega
    · intro _
      exact ⟨rfl, rfl⟩

/-- Witness for the amended C4 at the concrete skipped input: NUL pushed
into the fresh console. -/
theorem accumulate_skip_iff_witness :
    ((accumulate defaultTermios initState 0).st = initState ∧
      (accumulate defaultTermios initState 0).out = []) ↔
      ((0 : Nat) = 0 ∨ 128 ≤ sub32 initState.e initState.r) :=
  accumulate_skip_iff defaultTermios initState 0 (by decide)

/-- C7: two `consoleintr` runs over the same raw codes from the same
state, differing only in the echo flag, produce identical final buffer
states (contents and all three cursors) and identical wakeup counts: the
echo flag influences only the echoed output, never buffering or commit. -/
theorem consoleintr_echo_noninterference (t1 t2 : Termios)
    (hic : t1.icanon = t2.icanon) :
    ∀ (cs : List Nat) (s : InputState),
      (consoleintr t1 s cs).st = (consoleintr t2 s cs).st ∧
      (consoleintr t1 s cs).wakes = (consoleintr t2 s cs).wakes := by
  intro cs
  induction cs with
  | nil => intro s; exact ⟨rfl, rfl⟩
  | cons c rest ih =>
    intro s
    obtain ⟨hst, hwk⟩ := intrCode_echo_indep t1 t2 hic s c
    obtain ⟨hst2, hwk2⟩ := ih (intrCode t1 s c).st
    simp only [consoleintr]
    constructor
    · rw [← hst]; exact hst2
    · rw [hwk, ← hst, hwk2]

/-- Witness for C7: echo on versus echo off over the codes `a`,`\n`. -/
theorem consoleintr_echo_noninterference_witness :
    (consoleintr ⟨true, true⟩ initState [97, 10]).st =
      (consoleintr ⟨false, true⟩ initState [97, 10]).st ∧
    (consoleintr ⟨true, true⟩ initState [97, 10]).wakes =
      (consoleintr ⟨false, true⟩ initState [97, 10]).wakes :=
  consoleintr_echo_noninterference ⟨true, true⟩ ⟨false, true⟩ rfl [97, 10] initState

/-! ### Read-path claim theorems -/

theorem readLoop_eof_first {t : Termios} (hcan : t.icanon = true)
    {s : InputState} (hne : ¬ s.r = s.w) (heof : s.buf (s.r % 128) = 4)
    (k target : Nat) (hts : ¬ k + 1 < target) :
    readLoop t false target (k + 1) s [] =
      .done [] { s with r := (s.r + 1) % W32 } := by
  simp only [readLoop]
  rw [if_neg hne, if_pos ⟨heof, hcan⟩, if_neg hts]

/-- C2: in canonical mode, after pushing `a`, `b`, `C('D')` (EOF) into the
fresh console, a read with target 10 returns exactly the two bytes "ab"
(the EOF marker is deferred: `R` is rewound past it), and any following
read with target ≥ 1 dequeues the deferred marker first and returns 0
bytes. -/
theorem eof_deferral (m : Nat) (hm : 1 ≤ m) :
    bytesOf (consoleread defaultTermios false 10
        ((consoleintr defaultTermios initState [97, 98, 4]).st)) = [97, 98] ∧
    retOf (consoleread defaultTermios false 10
        ((consoleintr defaultTermios initState [97, 98, 4]).st)) = some 2 ∧
    bytesOf (consoleread defaultTermios false m
        (stOf (consoleread defaultTermios false 10
          ((consoleintr defaultTermios initState [97, 98, 4]).st)))) = [] ∧
    retOf (consoleread defaultTermios false m
        (stOf (consoleread defaultTermios false 10
          ((consoleintr defaultTermios initState [97, 98, 4]).st)))) = some 0 := by
  obtain ⟨k, rfl⟩ : ∃ k, m = k + 1 := ⟨m - 1, by omega⟩
  have h2 : readLoop defaultTermios false (k + 1) (k + 1)
      (stOf (consoleread defaultTermios false 10
        ((consoleintr defaultTermios initState [97, 98, 4]).st))) [] =
      .done [] { stOf (consoleread defaultTermios false 10
          ((consoleintr defaultTermios initState [97, 98, 4]).st)) with
        r := ((stOf (consoleread defaultTermios false 10
          ((consoleintr defaultTermios initState [97, 98, 4]).st))).r + 1) % W32 } :=
    readLoop_eof_first rfl (by decide) (by decide) k (k + 1) (by omega)
  refine ⟨rfl, rfl, ?_, ?_⟩
  · show bytesOf (readLoop defaultTermios false (k + 1) (k + 1)
      (stOf (consoleread defaultTermios false 10
        ((consoleintr defaultTermios initState [97, 98, 4]).st))) []) = []
    rw [h2]
    rfl
  · show retOf (readLoop defaultTermios false (k + 1) (k + 1)
      (stOf (consoleread defaultTermios false 10
        ((consoleintr defaultTermios initState [97, 98, 4]).st))) []) = some 0
    rw [h2]
    rfl

/-- Witness for C2 with the second read's target instantiated to 1. -/
theorem eof_deferral_witness :
    bytesOf (consoleread defaultTermios false 10
        ((consoleintr defaultTermios initState [97, 98, 4]).st)) = [97, 98] ∧
    retOf (consoleread defaultTermios false 10
        ((consoleintr defaultTermios initState [97, 98, 4]).st)) = some 2 ∧
    bytesOf (consoleread defaultTermios false 1
        (stOf (consoleread defaultTermios false 10
          ((consoleintr defaultTermios initState [97, 98, 4]).st)))) = [] ∧
    retOf (consoleread defaultTermios false 1
        (stOf (consoleread defaultTermios false 10
          ((consoleintr defaultTermios initState [97, 98, 4]).st)))) = some 0 :=
  eof_deferral 1 (by omega)

theorem readLoop_not_killed_no_killedRet (t : Termios) (target : Nat) :
    ∀ (n : Nat) (s : InputState) (acc bs : List Nat) (s1 : InputState),
      readLoop t false target n s acc ≠ .killedRet bs s1 := by
  intro n
  induction n with
  | zero => intro s acc bs s1; simp [readLoop]
  | succ n ih =>
    intro s acc bs s1
    simp only [readLoop]
    by_cases hrw : s.r = s.w
    · rw [if_pos hrw]; simp
    · rw [if_neg hrw]
      by_cases h4 : s.buf (s.r % 128) = 4 ∧ t.icanon = true
      · rw [if_pos h4]; split <;> simp
      · rw [if_neg h4]
        by_cases h10 : s.buf (s.r % 128) = 10 ∧ t.icanon = true
        · rw [if_pos h10]; simp
        · rw [if_neg h10]; exact ih _ _ _ _

theorem readLoop_killed_blocked_iff (t : Termios) (target : Nat) :
    ∀ (n : Nat) (s : InputState) (acc : List Nat),
      (∃ bs s1, readLoop t true target n s acc = .killedRet bs s1) ↔
      (∃ bs m s1, readLoop t false target n s acc = .blocked bs m s1) := by
  intro n
  induction n with
  | zero =>
    intro s acc
    constructor
    · rintro ⟨bs, s1, h⟩; exact absurd h (by simp [readLoop])
    · rintro ⟨bs, m, s1, h⟩; exact absurd h (by simp [readLoop])
  | succ n ih =>
    intro s acc
    simp only [readLoop]
    by_cases hrw : s.r = s.w
    · simp only [if_pos hrw]
      simp
    · simp only [if_neg hrw]
      by_cases h4 : s.buf (s.r % 128) = 4 ∧ t.icanon = true
      · simp only [if_pos h4]
        split <;> simp
      · simp only [if_neg h4]
        by_cases h10 : s.buf (s.r % 128) = 10 ∧ t.icanon = true
        · simp only [if_pos h10]; simp
        · simp only [if_neg h10]; exact ih _ _

theorem retOf_neg_iff (o : ReadOutcome) :
    retOf o = some (-1) ↔ ∃ bs s1, o = .killedRet bs s1 := by
  cases o with
  | done bs s1 =>
    simp only [retOf, Option.some.injEq]
    constructor
    · intro h; exfalso; omega
    · rintro ⟨_, _, h⟩; cases h
  | killedRet bs s1 =>
    simp only [retOf]
    constructor
    · intro _; exact ⟨bs, s1, rfl⟩
    · intro _; trivial
  | blocked bs m s1 =>
    simp only [retOf]
    constructor
    · intro h; cases h
    · rintro ⟨_, _, h⟩; cases h

/-- C6: `consoleread` returns `-1` exactly when the process's killed flag
is observed while the buffer is empty (`r = w`) during the call — that is,
exactly when the killed flag is set and the same call on a live process
would have reached the sleep point; in every other exit the call returns
the non-negative count of bytes delivered (0 included, meaning
end-of-input). -/
theorem consoleread_fail_iff (t : Termios) (killed : Bool) (n : Nat)
    (s : InputState) :
    (retOf (consoleread t killed n s) = some (-1) ↔
      killed = true ∧ readWouldBlock t n n s []) ∧
    (∀ bs s1, consoleread t killed n s = .done bs s1 →
      retOf (consoleread t killed n s) = some (bs.length : Int)) := by
  constructor
  · rw [consoleread, retOf_neg_iff]
    cases killed
    · constructor
      · rintro ⟨bs, s1, h⟩
        exact absurd h (readLoop_not_killed_no_killedRet t n n s [] bs s1)
      · rintro ⟨h, -⟩; cases h
    · constructor
      · intro hex
        exact ⟨rfl, (readLoop_killed_blocked_iff t n n s []).mp hex⟩
      · rintro ⟨-, hwb⟩
        exact (readLoop_killed_blocked_iff t n n s []).mpr hwb
  · intro bs s1 h
    rw [h]
    rfl

/-- Witness for C6: a killed process reading from the fresh (empty)
console gets `-1`; the same read with the process alive blocks. -/
theorem consoleread_fail_iff_witness :
    retOf (consoleread defaultTermios true 1 initState) = some (-1) :=
  (consoleread_fail_iff defaultTermios true 1 initState).1.mpr
    ⟨rfl, [], 1, initState, rfl⟩

/-! ### Provenance of delivered bytes (C3) -/

theorem stored_mk {P : Nat → Prop} {b : Nat → Nat} {r w e : Nat}
    (h : ∀ k, k < sub32 e r → P (b ((r + k) % 128))) :
    Stored P ⟨b, r, w, e⟩ := h

theorem inv_read_pop {s : InputState} (hInv : Inv s) (hne : ¬ s.r = s.w) :
    Inv { s with r := (s.r + 1) % W32 } := by
  obtain ⟨hr, hw, he, h4, h5, h6⟩ := hInv
  have hW : W32 = 4294967296 := rfl
  have hnz : sub32 s.w s.r ≠ 0 := fun h0 => hne ((sub32_zero_iff hw hr).mp h0).symm
  have hnz2 : sub32 s.e s.r ≠ 0 := by omega
  have hr1 : (s.r + 1) % W32 < W32 := Nat.mod_lt _ (by omega)
  have hq1 := sub32_succ_right hw hr hnz
  have hq2 := sub32_succ_right he hr hnz2
  refine inv_mk hr1 hw he ?_ ?_ ?_
  · rw [hq2]; omega
  · rw [hq1, hq2]; omega
  · intro k hk; exact h6 k hk

theorem stored_read_pop {P : Nat → Prop} {s : InputState} (hInv : Inv s)
    (hst : Stored P s) (hne : ¬ s.r = s.w) :
    Stored P { s with r := (s.r + 1) % W32 } := by
  obtain ⟨hr, hw, he, h4, h5, h6⟩ := hInv
  have hW : W32 = 4294967296 := rfl
  have hnz : sub32 s.w s.r ≠ 0 := fun h0 => hne ((sub32_zero_iff hw hr).mp h0).symm
  have hnz2 : sub32 s.e s.r ≠ 0 := by omega
  have hq2 := sub32_succ_right he hr hnz2
  apply stored_mk
  intro k hk
  rw [hq2] at hk
  rw [mod128_shift (s.r + 1) k]
  have h0 := hst (k + 1) (by omega)
  rwa [show s.r + (k + 1) = s.r + 1 + k by omega] at h0

theorem stored_accumulate (t : Termios) {P : Nat → Prop} {s : InputState}
    {c : Nat} (hc : c < 256) (hPc : P (translate c)) (hInv : Inv s)
    (hst : Stored P s) : Stored P (accumulate t s c).st := by
  obtain ⟨hr, hw, he, h4, h5, h6⟩ := hInv
  have hW : W32 = 4294967296 := rfl
  unfold accumulate
  by_cases hg : c ≠ 0 ∧ sub32 s.e s.r < 128
  case neg => rw [if_neg hg]; exact hst
  case pos =>
    rw [if_pos hg]
    obtain ⟨hc0, hroom⟩ := hg
    have hse : sub32 ((s.e + 1) % W32) s.r = sub32 s.e s.r + 1 :=
      sub32_succ_left he hr (by omega)
    have htr : translate c % 256 = translate c :=
      Nat.mod_eq_of_lt (by unfold translate; split <;> omega)
    have key : ∀ k, k < sub32 ((s.e + 1) % W32) s.r →
        P (Function.update s.buf (s.e % 128) (translate c % 256)
          ((s.r + k) % 128)) := by
      intro k hk
      rw [hse] at hk
      rcases Nat.lt_or_ge k (sub32 s.e s.r) with hklt | hkge
      · have hne2 : (s.r + k) % 128 ≠ s.e % 128 := by
          rw [← mod128_cursor he hr]
          intro hcontra
          exact absurd (idx_inj (by omega) (by omega) hcontra) (by omega)
        rw [Function.update_noteq hne2]
        exact hst k hklt
      · have hkeq : k = sub32 s.e s.r := by omega
        subst hkeq
        rw [mod128_cursor he hr, Function.update_same, htr]
        exact hPc
    split
    · exact stored_mk key
    · exact stored_mk key

theorem stored_erase1 {P : Nat → Prop} {s : InputState} (hInv : Inv s)
    (hst : Stored P s) (hne : s.e ≠ s.w) : Stored P (erase1 s) := by
  obtain ⟨hr, hw, he, h4, h5, h6⟩ := hInv
  have hW : W32 = 4294967296 := rfl
  have hnz : sub32 s.e s.w ≠ 0 := fun h0 => hne ((sub32_zero_iff he hw).mp h0)
  have hnz2 : sub32 s.e s.r ≠ 0 := by omega
  have hp1 := sub32_pred_left he hr hnz2
  unfold erase1
  apply stored_mk
  intro k hk
  rw [hp1] at hk
  exact hst k (by omega)

theorem stored_commit_reset {P : Nat → Prop} {s : InputState} (hInv : Inv s)
    (hst : Stored P s) : Stored P { s with e := s.w } := by
  obtain ⟨hr, hw, he, h4, h5, h6⟩ := hInv
  apply stored_mk
  intro k hk
  exact hst k (by omega)

theorem stored_intrCode (t : Termios) {P : Nat → Prop} {s : InputState}
    {c : Nat} (hc : c < 256) (hPc : P (translate c)) (hInv : Inv s)
    (hst : Stored P s) : Stored P (intrCode t s c).st := by
  unfold intrCode
  by_cases hcan : t.icanon = true
  · rw [if_pos hcan]
    by_cases h16 : c = 16
    · rw [if_pos h16]; exact hst
    · rw [if_neg h16]
      by_cases h21 : c = 21
      · rw [if_pos h21]
        show Stored P (killLineAux t (sub32 s.e s.w) s).1
        rw [killLineAux_drain t (sub32 s.e s.w) s hInv rfl]
        exact stored_commit_reset hInv hst
      · rw [if_neg h21]
        by_cases h8 : c = 8 ∨ c = 127
        · rw [if_pos h8]
          by_cases hne : s.e ≠ s.w
          · rw [if_pos hne]; exact stored_erase1 hInv hst hne
          · rw [if_neg hne]; exact hst
        · rw [if_neg h8]; exact stored_accumulate t hc hPc hInv hst
  · rw [if_neg hcan]; exact stored_accumulate t hc hPc hInv hst

theorem stored_consoleintr (t : Termios) {P : Nat → Prop} :
    ∀ (cs : List Nat) (s : InputState),
      (∀ c ∈ cs, c < 256 ∧ P (translate c)) → Inv s → Stored P s →
      Stored P (consoleintr t s cs).st := by
  intro cs
  induction cs with
  | nil => intro s _ _ hst; exact hst
  | cons c rest ih =>
    intro s hcs hInv hst
    exact ih _ (fun x hx => hcs x (List.mem_cons_of_mem _ hx))
      (inv_intrCode t (hcs c (List.mem_cons_self _ _)).1 hInv)
      (stored_intrCode t (hcs c (List.mem_cons_self _ _)).1
        (hcs c (List.mem_cons_self _ _)).2 hInv hst)

theorem readLoop_bytes_prov (t : Termios) (killed : Bool) (target : Nat)
    {P : Nat → Prop} :
    ∀ (n : Nat) (s : InputState) (acc : List Nat),
      Inv s → Stored P s → (∀ b ∈ acc, P b) →
      ∀ b ∈ bytesOf (readLoop t killed target n s acc), P b := by
  intro n
  induction n with
  | zero => intro s acc _ _ hacc; exact hacc
  | succ n ih =>
    intro s acc hInv hst hacc
    simp only [readLoop]
    by_cases hrw : s.r = s.w
    · rw [if_pos hrw]
      split <;> exact hacc
    · rw [if_neg hrw]
      have hlt0 : 0 < sub32 s.e s.r := by
        obtain ⟨hr, hw, he, h4, h5, h6⟩ := id hInv
        have hnz : sub32 s.w s.r ≠ 0 :=
          fun h0 => hrw ((sub32_zero_iff hw hr).mp h0).symm
        omega
      have hpop : P (s.buf (s.r % 128)) := by
        have h0 := hst 0 hlt0
        rwa [Nat.add_zero] at h0
      by_cases h4c : s.buf (s.r % 128) = 4 ∧ t.icanon = true
      · rw [if_pos h4c]
        split <;> exact hacc
      · rw [if_neg h4c]
        have hacc2 : ∀ b ∈ acc ++ [s.buf (s.r % 128)], P b := by
          intro b hb
          rcases List.mem_append.mp hb with h | h
          · exact hacc b h
          · rw [List.mem_singleton] at h; subst h; exact hpop
        by_cases h10 : s.buf (s.r % 128) = 10 ∧ t.icanon = true
        · rw [if_pos h10]
          exact hacc2
        · rw [if_neg h10]
          exact ih _ _ (inv_read_pop hInv hrw) (stored_read_pop hInv hst hrw)
            hacc2

theorem readLoop_no_nl_before_last (t : Termios) (hcan : t.icanon = true)
    (killed : Bool) (target : Nat) :
    ∀ (n : Nat) (s : InputState) (acc : List Nat),
      (∀ b ∈ acc, b ≠ 10) →
      ∀ b ∈ (bytesOf (readLoop t killed target n s acc)).dropLast, b ≠ 10 := by
  intro n
  induction n with
  | zero =>
    intro s acc hacc b hb
    exact hacc b (List.dropLast_subset _ hb)
  | succ n ih =>
    intro s acc hacc
    simp only [readLoop]
    by_cases hrw : s.r = s.w
    · rw [if_pos hrw]
      split <;> (intro b hb; exact hacc b (List.dropLast_subset _ hb))
    · rw [if_neg hrw]
      by_cases h4c : s.buf (s.r % 128) = 4 ∧ t.icanon = true
      · rw [if_pos h4c]
        split <;> (intro b hb; exact hacc b (List.dropLast_subset _ hb))
      · rw [if_neg h4c]
        by_cases h10 : s.buf (s.r % 128) = 10 ∧ t.icanon = true
        · rw [if_pos h10]
          intro b hb
          rw [show bytesOf (ReadOutcome.done (acc ++ [s.buf (s.r % 128)])
            { s with r := (s.r + 1) % W32 }) = acc ++ [s.buf (s.r % 128)]
            from rfl, List.dropLast_concat] at hb
          exact hacc b hb
        · rw [if_neg h10]
          apply ih
          intro b hb
          rcases List.mem_append.mp hb with h | h
          · exact hacc b h
          · rw [List.mem_singleton] at h
            subst h
            exact fun hh => h10 ⟨hh, hcan⟩

theorem slots_eq_map (b : Nat → Nat) :
    ∀ (d start : Nat), start < W32 →
      slots b start d = (List.range d).map (fun i => b ((start + i) % 128)) := by
  intro d
  induction d with
  | zero => intro start _; rfl
  | succ d ih =>
    intro start hs
    simp only [slots]
    rw [ih ((start + 1) % W32) (Nat.mod_lt _ (by decide))]
    rw [List.range_succ_eq_map, List.map_cons, List.map_map]
    have hmap : (List.range d).map
        (fun i => b (((start + 1) % W32 + i) % 128)) =
        (List.range d).map ((fun i => b ((start + i) % 128)) ∘ Nat.succ) := by
      apply List.map_congr_left
      intro i _
      simp only [Function.comp]
      rw [mod128_shift (start + 1) i,
        show start + 1 + i = start + Nat.succ i by omega]
    rw [hmap, Nat.add_zero]

/-- The bytes a read loop copies to `dst` beyond what it had already
copied are exactly some number `d` of consecutive committed buffer slots
starting at the read cursor, in dequeue order: nothing is invented and no
slot is delivered twice. -/
theorem readLoop_bytes_slice (t : Termios) (killed : Bool) (target : Nat) :
    ∀ (n : Nat) (s : InputState) (acc : List Nat), Inv s →
      ∃ d, d ≤ sub32 s.w s.r ∧
        bytesOf (readLoop t killed target n s acc) =
          acc ++ slots s.buf s.r d := by
  intro n
  induction n with
  | zero =>
    intro s acc _
    exact ⟨0, Nat.zero_le _, by simp [readLoop, bytesOf, slots]⟩
  | succ n ih =>
    intro s acc hInv
    obtain ⟨hr, hw, he, h4, h5, h6⟩ := id hInv
    have hW : W32 = 4294967296 := rfl
    simp only [readLoop]
    by_cases hrw : s.r = s.w
    · rw [if_pos hrw]
      refine ⟨0, Nat.zero_le _, ?_⟩
      split <;> simp [bytesOf, slots]
    · rw [if_neg hrw]
      have hnz : sub32 s.w s.r ≠ 0 :=
        fun h0 => hrw ((sub32_zero_iff hw hr).mp h0).symm
      have hq1 := sub32_succ_right hw hr hnz
      by_cases h4c : s.buf (s.r % 128) = 4 ∧ t.icanon = true
      · rw [if_pos h4c]
        refine ⟨0, Nat.zero_le _, ?_⟩
        split <;> simp [bytesOf, slots]
      · rw [if_neg h4c]
        by_cases h10 : s.buf (s.r % 128) = 10 ∧ t.icanon = true
        · rw [if_pos h10]
          refine ⟨1, by omega, ?_⟩
          simp [bytesOf, slots]
        · rw [if_neg h10]
          obtain ⟨d, hd, hbytes⟩ := ih { s with r := (s.r + 1) % W32 }
            (acc ++ [s.buf (s.r % 128)]) (inv_read_pop hInv hrw)
          dsimp only at hd hbytes
          refine ⟨d + 1, by omega, ?_⟩
          rw [hbytes]
          simp only [slots]
          rw [List.append_assoc]
          rfl

/-- C3: with canonical mode on, for every batch of raw byte codes pushed
by `consoleintr` into the fresh console, a single `consoleread` call never
returns more than one line — no line feed occurs before the last returned
byte — and the delivered bytes are exactly some number `d` of consecutive
committed buffer slots starting at the read cursor (the `i`-th delivered
byte is the byte previously stored at slot `(r + i) mod 128`, the `d`
slot positions being pairwise distinct: no byte is invented or delivered
twice), each of them the (CR→LF translated) image of some pushed code. -/
theorem canonical_read_one_line (t : Termios) (hcan : t.icanon = true)
    (killed : Bool) (cs : List Nat) (hcs : ∀ c ∈ cs, c < 256) (n : Nat) :
    (∀ b ∈ (bytesOf (consoleread t killed n
        ((consoleintr t initState cs).st))).dropLast, b ≠ 10) ∧
    (∃ d, d ≤ sub32 ((consoleintr t initState cs).st).w
          ((consoleintr t initState cs).st).r ∧
      bytesOf (consoleread t killed n ((consoleintr t initState cs).st)) =
        (List.range d).map (fun i => ((consoleintr t initState cs).st).buf
          ((((consoleintr t initState cs).st).r + i) % 128)) ∧
      ∀ i j, i < d → j < d →
        (((consoleintr t initState cs).st).r + i) % 128 =
          (((consoleintr t initState cs).st).r + j) % 128 → i = j) ∧
    (∀ b ∈ bytesOf (consoleread t killed n ((consoleintr t initState cs).st)),
      b ∈ cs.map translate) := by
  have hInv : Inv ((consoleintr t initState cs).st) :=
    inv_consoleintr t cs initState hcs inv_init
  have hstored0 : Stored (· ∈ cs.map translate) initState := by
    intro k hk
    rw [show sub32 initState.e initState.r = 0 from by decide] at hk
    exact absurd hk (by omega)
  obtain ⟨hr, hw, he, hb4, hb5, hb6⟩ := id hInv
  refine ⟨?_, ?_, ?_⟩
  · exact readLoop_no_nl_before_last t hcan killed n n _ [] (by simp)
  · obtain ⟨d, hd, hbytes⟩ :=
      readLoop_bytes_slice t killed n n ((consoleintr t initState cs).st) []
        hInv
    refine ⟨d, hd, ?_, ?_⟩
    · rw [show bytesOf (consoleread t killed n
          ((consoleintr t initState cs).st)) =
          [] ++ slots ((consoleintr t initState cs).st).buf
            ((consoleintr t initState cs).st).r d from hbytes,
        List.nil_append]
      exact slots_eq_map _ d _ hr
    · intro i j hi hj hij
      exact idx_inj (by omega) (by omega) hij
  · have hread := readLoop_bytes_prov t killed n
      (P := fun b => b ∈ cs.map translate) n
      ((consoleintr t initState cs).st) []
      hInv
      (stored_consoleintr t cs initState
        (fun c hc => ⟨hcs c hc, List.mem_map_of_mem translate hc⟩)
        inv_init hstored0)
      (fun b hb => absurd hb (List.not_mem_nil b))
    exact hread

/-- Witness for C3: pushing `h`,`\n` and reading with target 5. -/
theorem canonical_read_one_line_witness :
    (∀ b ∈ (bytesOf (consoleread defaultTermios false 5
        ((consoleintr defaultTermios initState [104, 10]).st))).dropLast,
      b ≠ 10) ∧
    (∃ d, d ≤ sub32 ((consoleintr defaultTermios initState [104, 10]).st).w
          ((consoleintr defaultTermios initState [104, 10]).st).r ∧
      bytesOf (consoleread defaultTermios false 5
          ((consoleintr defaultTermios initState [104, 10]).st)) =
        (List.range d).map
          (fun i => ((consoleintr defaultTermios initState [104, 10]).st).buf
            ((((consoleintr defaultTermios initState [104, 10]).st).r + i) %
              128)) ∧
      ∀ i j, i < d → j < d →
        (((consoleintr defaultTermios initState [104, 10]).st).r + i) % 128 =
          (((consoleintr defaultTermios initState [104, 10]).st).r + j) %
            128 → i = j) ∧
    (∀ b ∈ bytesOf (consoleread defaultTermios false 5
        ((consoleintr defaultTermios initState [104, 10]).st)),
      b ∈ ([104, 10] : List Nat).map translate) :=
  canonical_read_one_line defaultTermios rfl false [104, 10]
    (by intro c hc; simp at hc; rcases hc with rfl | rfl <;> omega) 5

/-! ### Formatter and control-path claims (C8, C9, C10) -/

theorem rawDigitsFuel_eq_digits (base : Nat) (hb : 1 < base) :
    ∀ (fuel x : Nat), 0 < x → x ≤ fuel →
      rawDigitsFuel base fuel x = (Nat.digits base x).map digitChar := by
  intro fuel
  induction fuel with
  | zero => intro x hx hle; omega
  | succ fuel ih =>
    intro x hx hle
    simp only [rawDigitsFuel]
    rw [Nat.digits_def' hb hx]
    by_cases h0 : x / base = 0
    · rw [if_pos h0, h0, Nat.digits_zero]
      rfl
    · rw [if_neg h0,
        ih (x / base) (Nat.pos_of_ne_zero h0)
          (by have := Nat.div_lt_self hx hb; omega)]
      rfl

theorem rawDigits_eq_digits (base x : Nat) (hb : 1 < base) (hx : 0 < x) :
    rawDigits base x = (Nat.digits base x).map digitChar :=
  rawDigitsFuel_eq_digits base hb x x hx le_rfl

theorem cprintf_d_pos (w : Nat) (h0 : 0 < w) (hw : w < 2147483648) :
    cprintf [37, 100] [.num w] = ((Nat.digits 10 w).map digitChar).reverse := by
  show printint (vargNum [Varg.num w]) 10 true ++
    cprintf [] [Varg.num w].tail = _
  rw [show vargNum [Varg.num w] = w from Nat.mod_eq_of_lt (by omega)]
  unfold printint
  rw [if_neg (by rintro ⟨-, h⟩; omega)]
  rw [rawDigits_eq_digits 10 w (by omega) h0]
  simp [cprintf]

theorem cprintf_d_neg (w : Nat) (hlo : 2147483648 ≤ w)
    (hhi : w < 4294967296) :
    cprintf [37, 100] [.num w] =
      45 :: ((Nat.digits 10 (4294967296 - w)).map digitChar).reverse := by
  show printint (vargNum [Varg.num w]) 10 true ++
    cprintf [] [Varg.num w].tail = _
  rw [show vargNum [Varg.num w] = w from Nat.mod_eq_of_lt (by omega)]
  unfold printint
  rw [if_pos ⟨rfl, hlo⟩]
  rw [show (4294967296 - w) % 4294967296 = 4294967296 - w from
    Nat.mod_eq_of_lt (by omega)]
  rw [rawDigits_eq_digits 10 (4294967296 - w) (by omega) (by omega)]
  simp [cprintf]

theorem cprintf_hex (spec : Nat) (hspec : spec = 120 ∨ spec = 112)
    (w : Nat) (h0 : 0 < w) (hw : w < 4294967296) :
    cprintf [37, spec] [.num w] =
      ((Nat.digits 16 w).map digitChar).reverse := by
  have hstep : cprintf [37, spec] [.num w] =
      printint (vargNum [Varg.num w]) 16 false ++
        cprintf [] [Varg.num w].tail := by
    rcases hspec with rfl | rfl
    · rfl
    · rfl
  rw [hstep, show vargNum [Varg.num w] = w from Nat.mod_eq_of_lt (by omega)]
  unfold printint
  rw [if_neg (by rintro ⟨h, -⟩; cases h)]
  rw [rawDigits_eq_digits 16 w (by omega) h0]
  simp [cprintf]

/-- C8: the diagnostic formatter renders its mini-language as specified:
`cprintf("%d:%x:%s", -5, 255, "hi")` emits exactly `-5:ff:hi`;
`cprintf("%s", NULL)` emits `(null)`; `cprintf("%q")` emits `%q`; `%%`
emits a single `%`; and in general `%d` renders a signed decimal with a
leading `-` for negative (two's-complement) words while `%x`/`%p` render
the unsigned hexadecimal digits. -/
theorem cprintf_spec :
    cprintf [37, 100, 58, 37, 120, 58, 37, 115]
        [.num 4294967291, .num 255, .str (some [104, 105])] =
      [45, 53, 58, 102, 102, 58, 104, 105] ∧
    cprintf [37, 115] [.str none] = [40, 110, 117, 108, 108, 41] ∧
    cprintf [37, 113] [] = [37, 113] ∧
    cprintf [37, 37] [] = [37] ∧
    cprintf [37, 100] [.num 0] = [48] ∧
    (∀ w, 0 < w → w < 2147483648 →
      cprintf [37, 100] [.num w] =
        ((Nat.digits 10 w).map digitChar).reverse) ∧
    (∀ w, 2147483648 ≤ w → w < 4294967296 →
      cprintf [37, 100] [.num w] =
        45 :: ((Nat.digits 10 (4294967296 - w)).map digitChar).reverse) ∧
    (∀ w spec, spec = 120 ∨ spec = 112 → 0 < w → w < 4294967296 →
      cprintf [37, spec] [.num w] =
        ((Nat.digits 16 w).map digitChar).reverse) :=
  ⟨by decide, by decide, by decide, by decide, by decide,
   cprintf_d_pos, cprintf_d_neg,
   fun w spec hs h0 hw => cprintf_hex spec hs w h0 hw⟩

/-- Witness for C8's general clauses at concrete words. -/
theorem cprintf_spec_witness :
    cprintf [37, 100] [.num 7] = ((Nat.digits 10 7).map digitChar).reverse ∧
    cprintf [37, 100] [.num 4294967290] =
      45 :: ((Nat.digits 10 (4294967296 - 4294967290)).map digitChar).reverse ∧
    cprintf [37, 120] [.num 255] =
      ((Nat.digits 16 255).map digitChar).reverse :=
  ⟨cprintf_spec.2.2.2.2.2.1 7 (by omega) (by omega),
   cprintf_spec.2.2.2.2.2.2.1 4294967290 (by omega) (by omega),
   cprintf_spec.2.2.2.2.2.2.2 255 120 (Or.inl rfl) (by omega) (by omega)⟩

/-- C9: the control operation recognizes exactly the get-mode (`TCGETA`)
and set-mode (`TCSETA`) requests: every other request fails with `-1` and
no state change; with the user pointer validated, get-mode copies the
current mode (exactly the echo and canonical bits) out to the caller
leaving the stored mode unchanged, and set-mode overwrites the stored
mode from the caller. -/
theorem consoleioctl_spec (req : Nat) (argOk : Bool) (cur user : Termios) :
    (req ≠ TCGETA → req ≠ TCSETA →
      consoleioctl req argOk cur user = (some (-1), cur, none)) ∧
    (argOk = true →
      consoleioctl TCGETA argOk cur user = (none, cur, some cur) ∧
      consoleioctl TCSETA argOk cur user = (none, user, none)) := by
  constructor
  · intro h1 h2
    unfold consoleioctl
    rw [if_pos ⟨h1, h2⟩]
  · intro hok
    constructor
    · unfold consoleioctl
      rw [if_neg (fun h => h.1 rfl), if_neg (by rw [hok]; simp), if_pos rfl]
    · unfold consoleioctl
      rw [if_neg (fun h => h.2 rfl), if_neg (by rw [hok]; simp),
        if_neg (by decide)]

/-- Witness for C9: an unrecognized request 0 fails without touching the
mode; get and set succeed with a validated pointer. -/
theorem consoleioctl_spec_witness :
    consoleioctl 0 true defaultTermios ⟨false, false⟩ =
        (some (-1), defaultTermios, none) ∧
      consoleioctl TCGETA true defaultTermios ⟨false, false⟩ =
        (none, defaultTermios, some defaultTermios) ∧
      consoleioctl TCSETA true defaultTermios ⟨false, false⟩ =
        (none, ⟨false, false⟩, none) :=
  ⟨(consoleioctl_spec 0 true defaultTermios ⟨false, false⟩).1
      (by decide) (by decide),
   ((consoleioctl_spec TCGETA true defaultTermios ⟨false, false⟩).2 rfl).1,
   ((consoleioctl_spec TCSETA true defaultTermios ⟨false, false⟩).2 rfl).2⟩

/-- An unknown `%<c>` directive prints `%` then `<c>`, for any argument
list. -/
theorem cprintf_unknown (c : Nat) (args : List Varg) (h100 : c ≠ 100)
    (h120 : c ≠ 120) (h112 : c ≠ 112) (h115 : c ≠ 115) (h37 : c ≠ 37) :
    cprintf [37, c] args = [37, c] := by
  unfold cprintf
  rw [if_neg (by omega)]
  dsimp only
  rw [if_neg h100, if_neg (by rintro (h | h) <;> [exact h120 h; exact h112 h]),
    if_neg h115, if_neg h37]
  rfl

/-- The scan of a complete format followed by anything splits: the
complete prefix is rendered first, and the suffix is then scanned from a
fresh directive boundary with whatever arguments remain. -/
theorem cprintf_lit_step (c : Nat) (hc : c ≠ 37) (rest : List Nat)
    (args : List Varg) :
    cprintf (c :: rest) args = c :: cprintf rest args := by
  conv_lhs => rw [cprintf.eq_def]
  dsimp only
  rw [if_pos hc]

theorem cprintf_split (suf : List Nat) :
    ∀ {pre : List Nat}, FmtComplete pre → ∀ (args : List Varg),
      ∃ rest, cprintf (pre ++ suf) args = cprintf pre args ++ cprintf suf rest := by
  intro pre h
  induction h with
  | nil => intro args; exact ⟨args, rfl⟩
  | lit c rest hc hrest ih =>
    intro args
    obtain ⟨r2, hr2⟩ := ih args
    refine ⟨r2, ?_⟩
    show cprintf (c :: (rest ++ suf)) args =
      cprintf (c :: rest) args ++ cprintf suf r2
    rw [cprintf_lit_step c hc (rest ++ suf) args,
      cprintf_lit_step c hc rest args, hr2]
    rfl
  | dir c2 rest hrest ih =>
    intro args
    by_cases h100 : c2 = 100
    · obtain ⟨r2, hr2⟩ := ih args.tail
      refine ⟨r2, ?_⟩
      show cprintf (37 :: c2 :: (rest ++ suf)) args =
        cprintf (37 :: c2 :: rest) args ++ cprintf suf r2
      simp only [cprintf]
      rw [if_neg (by omega : ¬(37 : Nat) ≠ 37),
        if_neg (by omega : ¬(37 : Nat) ≠ 37)]
      rw [if_pos h100, if_pos h100, hr2, List.append_assoc]
    · by_cases h16 : c2 = 120 ∨ c2 = 112
      · obtain ⟨r2, hr2⟩ := ih args.tail
        refine ⟨r2, ?_⟩
        show cprintf (37 :: c2 :: (rest ++ suf)) args =
          cprintf (37 :: c2 :: rest) args ++ cprintf suf r2
        simp only [cprintf]
        rw [if_neg (by omega : ¬(37 : Nat) ≠ 37),
          if_neg (by omega : ¬(37 : Nat) ≠ 37)]
        rw [if_neg h100, if_neg h100, if_pos h16, if_pos h16, hr2,
          List.append_assoc]
      · by_cases h115 : c2 = 115
        · obtain ⟨r2, hr2⟩ := ih args.tail
          refine ⟨r2, ?_⟩
          show cprintf (37 :: c2 :: (rest ++ suf)) args =
            cprintf (37 :: c2 :: rest) args ++ cprintf suf r2
          simp only [cprintf]
          rw [if_neg (by omega : ¬(37 : Nat) ≠ 37),
            if_neg (by omega : ¬(37 : Nat) ≠ 37)]
          rw [if_neg h100, if_neg h100, if_neg h16, if_neg h16,
            if_pos h115, if_pos h115, hr2, List.append_assoc]
        · by_cases h37 : c2 = 37
          · obtain ⟨r2, hr2⟩ := ih args
            refine ⟨r2, ?_⟩
            show cprintf (37 :: c2 :: (rest ++ suf)) args =
              cprintf (37 :: c2 :: rest) args ++ cprintf suf r2
            simp only [cprintf]
            rw [if_neg (by omega : ¬(37 : Nat) ≠ 37),
              if_neg (by omega : ¬(37 : Nat) ≠ 37)]
            rw [if_neg h100, if_neg h100, if_neg h16, if_neg h16,
              if_neg h115, if_neg h115, if_pos h37, if_pos h37, hr2]
            rfl
          · obtain ⟨r2, hr2⟩ := ih args
            refine ⟨r2, ?_⟩
            show cprintf (37 :: c2 :: (rest ++ suf)) args =
              cprintf (37 :: c2 :: rest) args ++ cprintf suf r2
            simp only [cprintf]
            rw [if_neg (by omega : ¬(37 : Nat) ≠ 37),
              if_neg (by omega : ¬(37 : Nat) ≠ 37)]
            rw [if_neg h100, if_neg h100, if_neg h16, if_neg h16,
              if_neg h115, if_neg h115, if_neg h37, if_neg h37, hr2]
            rfl

/-- C10: every format string ending with a lone `%` — a completely
consumed format followed by one final `%` — emits nothing at all for that
trailing `%`: the scan reads the string terminator right after the `%`
and stops, unlike every other malformed `%<c>` sequence, which emits `%`
followed by `<c>`. -/
theorem lone_percent_silent (pre : List Nat) (hpre : FmtComplete pre)
    (args : List Varg) :
    cprintf (pre ++ [37]) args = cprintf pre args ∧
    ∀ c, c ≠ 100 → c ≠ 120 → c ≠ 112 → c ≠ 115 → c ≠ 37 →
      cprintf (pre ++ [37, c]) args = cprintf pre args ++ [37, c] := by
  constructor
  · obtain ⟨rest, hr⟩ := cprintf_split [37] hpre args
    rw [hr, show cprintf [37] rest = [] from rfl, List.append_nil]
  · intro c h100 h120 h112 h115 h37
    obtain ⟨rest, hr⟩ := cprintf_split [37, c] hpre args
    rw [hr, cprintf_unknown c rest h100 h120 h112 h115 h37]

/-- Witness for C10 at the format `"%d%"` (and the contrast `"%d%q"`):
the lone-`%` prefix itself contains a directive. -/
theorem lone_percent_silent_witness :
    cprintf ([37, 100] ++ [37]) [Varg.num 5] =
      cprintf [37, 100] [Varg.num 5] ∧
    cprintf ([37, 100] ++ [37, 113]) [Varg.num 5] =
      cprintf [37, 100] [Varg.num 5] ++ [37, 113] :=
  ⟨(lone_percent_silent [37, 100]
      (FmtComplete.dir 100 [] FmtComplete.nil) [Varg.num 5]).1,
   (lone_percent_silent [37, 100]
      (FmtComplete.dir 100 [] FmtComplete.nil) [Varg.num 5]).2 113
      (by decide) (by decide) (by decide) (by decide) (by decide)⟩

end Console
